import Mathlib

/-
Shallow embedding of the core edit engine of the in-browser visual HTML
editor (src/App.tsx): the undo/redo history stack, the selection
operations, the serializer that strips editor metadata, and the
pointer-drag state machine.

Modelling conventions:
* The live iframe document is modelled at the level the spec's external
  markup adapter guarantees (parse/serialize round-trip): a history
  snapshot is the clean serialized markup string, and reloading a
  snapshot makes it the live document's clean markup.
* DOM element nodes are modelled by the `Dom` tree below.  `nid` models
  JavaScript object identity (unique per live element); operations that
  the source performs on an element object reference act on the first
  preorder node with that `nid`.  `classes` models the element's class
  attribute as its list of space-separated tokens (`className.split(' ')`
  / `classList`); `attrs` holds the remaining attributes in order;
  `marginTop`/`marginLeft` model the numeric pixel values of the inline
  `style.marginTop`/`style.marginLeft` longhands that the drag logic
  reads via `parseFloat(getComputedStyle(el).marginTop) || 0` and writes
  via `el.style.marginTop = v + 'px'`.  Text nodes are not modelled: the
  claims under study concern element structure, and the sibling
  operations used by the source (`children`, `nextElementSibling`,
  `previousElementSibling`) skip text nodes anyway.
* Layout geometry (`getBoundingClientRect`) comes from the external
  style-resolution/render collaborator; it is passed in as a function
  from node identity to a rectangle.
-/

-- ===== History state (pushHistory / undo / redo of App.tsx) =====

/-- The history-relevant state of the App component: the `history` list of
serialized snapshots, the current index `histIdx` (the React state
`historyIdx`, -1 when the history is empty), and `doc`, the clean
serialized markup of the live iframe document (what `serializeDocument`
returns for it). -/
structure EditorState where
  history : List String
  histIdx : Int
  doc : String
deriving Repr, DecidableEq

/-- `pushHistory` from App.tsx: serialize the live document, append it after
the current index (truncating any redo entries), evict the oldest entry if
the list exceeds 50, and point the index at the new tail.  Mirrors
`const newHistory = [...h.slice(0, idx + 1), html]; if (newHistory.length > 50)
newHistory.shift(); setHistory(newHistory); setHistoryIdx(newHistory.length - 1)`. -/
def pushHistory (s : EditorState) : EditorState :=
  let html := s.doc
  let newHistory := s.history.take (s.histIdx + 1).toNat ++ [html]
  let h2 := if newHistory.length > 50 then newHistory.drop 1 else newHistory
  { history := h2, histIdx := (h2.length : Int) - 1, doc := s.doc }

/-- One committed edit: the live document is mutated to markup `m` and the
mutation's history commit fires (every structural mutation in App.tsx calls
`pushHistory()` right after mutating the iframe DOM). -/
def applyEdit (s : EditorState) (m : String) : EditorState :=
  pushHistory { s with doc := m }

/-- `undo` from App.tsx: no-op if `idx <= 0`; otherwise decrement the index
and reload the snapshot at the new index as the live document (via
`processHtmlForEditor`/`loadProcessedHtml(..., false)`, which by the markup
adapter's round-trip contract makes the snapshot the clean live markup,
without a new history commit). -/
def undo (s : EditorState) : EditorState :=
  if s.histIdx ≤ 0 then s
  else
    let newIdx := s.histIdx - 1
    { s with histIdx := newIdx, doc := s.history.getD newIdx.toNat "" }

/-- `redo` from App.tsx: no-op if `idx >= history.length - 1`; otherwise
increment the index and reload that snapshot as the live document. -/
def redo (s : EditorState) : EditorState :=
  if s.histIdx ≥ (s.history.length : Int) - 1 then s
  else
    let newIdx := s.histIdx + 1
    { s with histIdx := newIdx, doc := s.history.getD newIdx.toNat "" }

/-- The state right after opening a file: `setHistory([]); setHistoryIdx(-1)`
followed by `loadProcessedHtml(html, true)` whose `addToHistory` branch calls
`pushHistory`. -/
def loadState (m : String) : EditorState :=
  pushHistory { history := [], histIdx := -1, doc := m }

/-- The raw pre-load state (`useState<string[]>([])`, `useState(-1)`), with
`d0` standing for the (empty) live document's markup. -/
def initialState (d0 : String) : EditorState :=
  { history := [], histIdx := -1, doc := d0 }

/-- A sequence of committed edits applied in order. -/
def runEdits (s : EditorState) (es : List String) : EditorState :=
  es.foldl applyEdit s

-- ===== DOM model =====

/-- A DOM element node; see the header comment for the field conventions. -/
inductive Dom where
  | node (nid : Nat) (tag : String) (classes : List String)
         (attrs : List (String × String)) (marginTop marginLeft : Int)
         (children : List Dom)
deriving Repr

def Dom.nid : Dom → Nat
  | .node n _ _ _ _ _ _ => n

def Dom.tag : Dom → String
  | .node _ tg _ _ _ _ _ => tg

def Dom.classes : Dom → List String
  | .node _ _ cs _ _ _ _ => cs

def Dom.attrs : Dom → List (String × String)
  | .node _ _ _ a _ _ _ => a

def Dom.marginTop : Dom → Int
  | .node _ _ _ _ mt _ _ => mt

def Dom.marginLeft : Dom → Int
  | .node _ _ _ _ _ ml _ => ml

def Dom.children : Dom → List Dom
  | .node _ _ _ _ _ _ ch => ch

-- Attribute-map primitives (getAttribute / setAttribute / removeAttribute)

/-- `el.getAttribute(k)`: the value of the first entry with key `k`. -/
def getAttr (attrs : List (String × String)) (k : String) : Option String :=
  (attrs.find? (fun p => p.1 == k)).map (fun p => p.2)

/-- `el.setAttribute(k, v)`: replace the existing entry in place, else
append a new one at the end. -/
def setAttr (attrs : List (String × String)) (k v : String) :
    List (String × String) :=
  if attrs.any (fun p => p.1 == k) then
    attrs.map (fun p => if p.1 == k then (k, v) else p)
  else attrs ++ [(k, v)]

/-- `el.removeAttribute(k)`. -/
def removeAttr (attrs : List (String × String)) (k : String) :
    List (String × String) :=
  attrs.filter (fun p => p.1 != k)

-- Class-token primitives (classList.add / classList.remove), on the token
-- list representation of the class attribute.

/-- `el.classList.add(tok)`: append the token if absent. -/
def classListAdd (cs : List String) (tok : String) : List String :=
  if cs.contains tok then cs else cs ++ [tok]

/-- `el.classList.remove(tok)`: drop every occurrence of the token. -/
def classListRemove (cs : List String) (tok : String) : List String :=
  cs.filter (fun c => c != tok)

/-- `isEditable` from App.tsx: every tag is editable except the reserved
structural/metadata/styling tags. -/
def isEditable (tag : String) : Bool :=
  !(["html", "head", "meta", "link", "script", "style", "title", "br", "hr"].contains tag)

-- ===== Selection (selectElement of App.tsx) =====

/-- Whether a node's attributes carry the editor's selection attribute. -/
def hasSelAttr (a : List (String × String)) : Bool :=
  (getAttr a "data-editor-selected").isSome

mutual
/-- The clearing pass of `selectElement`:
`doc.querySelectorAll('[data-editor-selected]').forEach(e => {
e.removeAttribute('data-editor-selected');
e.classList.remove('__editor_selected__'); })`. -/
def clearSelectedD : Dom → Dom
  | .node n tg cs a mt ml ch =>
    if hasSelAttr a then
      .node n tg (classListRemove cs "__editor_selected__")
        (removeAttr a "data-editor-selected") mt ml (clearSelectedL ch)
    else
      .node n tg cs a mt ml (clearSelectedL ch)
def clearSelectedL : List Dom → List Dom
  | [] => []
  | c :: rest => clearSelectedD c :: clearSelectedL rest
end

mutual
/-- `el.setAttribute('data-editor-selected', 'true');
el.classList.add('__editor_selected__')` on the element object `n` (first
preorder node with that identity); the Bool reports whether it was found. -/
def markSelectedD (n : Nat) : Dom → Dom × Bool
  | .node m tg cs a mt ml ch =>
    if m == n then
      (.node m tg (classListAdd cs "__editor_selected__")
        (setAttr a "data-editor-selected" "true") mt ml ch, true)
    else
      let r := markSelectedL n ch
      (.node m tg cs a mt ml r.1, r.2)
def markSelectedL (n : Nat) : List Dom → List Dom × Bool
  | [] => ([], false)
  | c :: rest =>
    let r := markSelectedD n c
    if r.2 then (r.1 :: rest, true)
    else
      let rr := markSelectedL n rest
      (r.1 :: rr.1, rr.2)
end

/-- `selectElement(el)` from App.tsx: strip the selection markers from every
currently marked element and reset `selectedElRef`; then, unless the target
is null or non-editable, mark the target and make it the selected element.
The target carries the element object's identity and tag name; `none` models
`selectElement(null)`.  Returns the updated tree and the new
`selectedElRef`. -/
def selectElement (t : Dom) (target : Option (Nat × String)) :
    Dom × Option Nat :=
  let t1 := clearSelectedD t
  match target with
  | none => (t1, none)
  | some (n, tg) =>
    if isEditable tg then ((markSelectedD n t1).1, some n)
    else (t1, none)

mutual
/-- Identities of the nodes carrying both selection markers (the
`data-editor-selected` attribute and the `__editor_selected__` class), in
document order. -/
def selMarkedD : Dom → List Nat
  | .node n _ cs a _ _ ch =>
    (if hasSelAttr a && cs.contains "__editor_selected__" then [n] else []) ++
      selMarkedL ch
def selMarkedL : List Dom → List Nat
  | [] => []
  | c :: rest => selMarkedD c ++ selMarkedL rest
end

mutual
/-- No node of the tree carries the `data-editor-selected` attribute. -/
def noSelAttrD : Dom → Bool
  | .node _ _ _ a _ _ ch => !hasSelAttr a && noSelAttrL ch
def noSelAttrL : List Dom → Bool
  | [] => true
  | c :: rest => noSelAttrD c && noSelAttrL rest
end

mutual
/-- Whether the tree contains a node with identity `n`. -/
def containsNidD (n : Nat) : Dom → Bool
  | .node m _ _ _ _ _ ch => m == n || containsNidL n ch
def containsNidL (n : Nat) : List Dom → Bool
  | [] => false
  | c :: rest => containsNidD n c || containsNidL n rest
end

/-- The `onClick` handler of `setupIframeInteraction`: clicking the body or
the document root clears the selection, anything else selects the clicked
element.  Modifier keys are not consulted by the handler. -/
def onClick (t : Dom) (target : Nat × String) : Dom × Option Nat :=
  if target.2 == "body" || target.2 == "html" then selectElement t none
  else selectElement t (some target)

-- ===== serializeDocument (App.tsx) =====

/-- One provisional-attribute restoration pass of `serializeDocument`:
if the marker attribute is present, write its value back to the target
attribute and drop the marker (`el.setAttribute(target, el.getAttribute(marker));
el.removeAttribute(marker)`). -/
def restoreOne (a : List (String × String)) (marker target : String) :
    List (String × String) :=
  match getAttr a marker with
  | some v => removeAttr (setAttr a target v) marker
  | none => a

/-- The per-element attribute rewrites of `serializeDocument`, in source
order: restore `src` from `data-editor-original-src`, `href` from
`data-editor-original-href`, `style` from `data-editor-original-style`,
and drop `data-editor-selected`. -/
def restoreAttrs (a : List (String × String)) : List (String × String) :=
  removeAttr
    (restoreOne
      (restoreOne
        (restoreOne a "data-editor-original-src" "src")
        "data-editor-original-href" "href")
      "data-editor-original-style" "style")
    "data-editor-selected"

/-- The class cleanup of `serializeDocument`:
`el.className.split(' ').filter(c => !c.startsWith('__editor_'))`, removing
the class attribute entirely when nothing (or only the empty token) is
left. -/
def stripEditorClasses (cs : List String) : List String :=
  let kept := cs.filter (fun c => !(c.startsWith "__editor_"))
  if kept.isEmpty || kept == [""] then [] else kept

/-- The per-node transform of `serializeDocument`: a `<style data-editor-href>`
element is replaced by a fresh `<link rel="stylesheet" href=...>` (children
dropped); every other element gets its attributes restored/cleaned.  `ch` is
the already-processed child list. -/
def restoreNode (n : Nat) (tg : String) (cs : List String)
    (a : List (String × String)) (mt ml : Int) (ch : List Dom) : Dom :=
  match (if tg == "style" then getAttr a "data-editor-href" else none) with
  | some h => .node n "link" [] [("rel", "stylesheet"), ("href", h)] mt ml []
  | none => .node n tg (stripEditorClasses cs) (restoreAttrs a) mt ml ch

mutual
/-- `serializeDocument`'s per-element passes applied over a subtree (the
passes commute node-wise, so the sequential `querySelectorAll` loops of the
source equal this single traversal). -/
def cleanD : Dom → Dom
  | .node n tg cs a mt ml ch => restoreNode n tg cs a mt ml (cleanL ch)
def cleanL : List Dom → List Dom
  | [] => []
  | c :: rest => cleanD c :: cleanL rest
end

mutual
/-- Search a node's descendants for the first node satisfying `p` and remove
it (with its subtree); the Bool reports whether one was found. -/
def removeFirstD (p : Dom → Bool) : Dom → Dom × Bool
  | .node n tg cs a mt ml ch =>
    let r := removeFirstL p ch
    (.node n tg cs a mt ml r.1, r.2)
/-- Remove the first node (in document order) satisfying `p` from a forest,
together with its whole subtree; the Bool reports whether one was found.
Models `clone.querySelector(sel)?.remove()` (which searches descendants
only). -/
def removeFirstL (p : Dom → Bool) : List Dom → List Dom × Bool
  | [] => ([], false)
  | c :: rest =>
    if p c then (rest, true)
    else
      let r := removeFirstD p c
      if r.2 then (r.1 :: rest, true)
      else
        let rr := removeFirstL p rest
        (c :: rr.1, rr.2)
end

/-- Whether a node is the injected editor style element
(`#__editor_styles__`). -/
def isEditorStyles (c : Dom) : Bool :=
  getAttr c.attrs "id" == some "__editor_styles__"

/-- `serializeDocument` from App.tsx, at tree level: on a clone of the
document element, remove the injected `#__editor_styles__` element, then
restore `<link>`s from their `data-editor-href` `<style>` replacements,
restore the provisionally rewritten `src`/`href`/`style` attributes, strip
`__editor_`-prefixed classes, and drop the `data-editor-selected`
attributes.  All passes run on the clone's descendants (`querySelectorAll`
on the root element does not match the root itself).  The doctype prefix
and the final text printing are the external markup adapter's concern. -/
def serializeDocument (t : Dom) : Dom :=
  match t with
  | .node n tg cs a mt ml ch =>
    .node n tg cs a mt ml (cleanL (removeFirstL isEditorStyles ch).1)

mutual
/-- Count of nodes in a subtree whose `id` attribute is `idv`. -/
def countIdD (idv : String) : Dom → Nat
  | .node _ _ _ a _ _ ch =>
    (if getAttr a "id" == some idv then 1 else 0) + countIdL idv ch
def countIdL (idv : String) : List Dom → Nat
  | [] => 0
  | c :: rest => countIdD idv c + countIdL idv rest
end

/-- Per-node absence of every piece of editor-only metadata that
`serializeDocument` is supposed to strip or consume (the `id` check is
handled separately via `countIdD`). -/
def noMarksB (tg : String) (cs : List String) (a : List (String × String)) :
    Bool :=
  (getAttr a "data-editor-selected").isNone &&
  (getAttr a "data-editor-original-src").isNone &&
  (getAttr a "data-editor-original-href").isNone &&
  (getAttr a "data-editor-original-style").isNone &&
  cs.all (fun c => !(c.startsWith "__editor_")) &&
  !(tg == "style" && (getAttr a "data-editor-href").isSome)

mutual
def noMarksD : Dom → Bool
  | .node _ tg cs a _ _ ch => noMarksB tg cs a && noMarksL ch
def noMarksL : List Dom → Bool
  | [] => true
  | c :: rest => noMarksD c && noMarksL rest
end

mutual
/-- No node of the subtree has `id` attribute `idv`. -/
def noIdD (idv : String) : Dom → Bool
  | .node _ _ _ a _ _ ch => getAttr a "id" != some idv && noIdL idv ch
def noIdL (idv : String) : List Dom → Bool
  | [] => true
  | c :: rest => noIdD idv c && noIdL idv rest
end

-- ===== Tree addressing: find / parent / siblings =====

mutual
/-- The first preorder node with identity `n` (models dereferencing the
element object). -/
def findNodeD (n : Nat) : Dom → Option Dom
  | .node m tg cs a mt ml ch =>
    if m == n then some (.node m tg cs a mt ml ch) else findNodeL n ch
def findNodeL (n : Nat) : List Dom → Option Dom
  | [] => none
  | c :: rest =>
    match findNodeD n c with
    | some d => some d
    | none => findNodeL n rest
end

mutual
/-- `el.parentElement`: the node having a direct child with identity `n`. -/
def findParentD (n : Nat) : Dom → Option Dom
  | .node m tg cs a mt ml ch =>
    if ch.any (fun c => c.nid == n) then some (.node m tg cs a mt ml ch)
    else findParentL n ch
def findParentL (n : Nat) : List Dom → Option Dom
  | [] => none
  | c :: rest =>
    match findParentD n c with
    | some d => some d
    | none => findParentL n rest
end

/-- `el.nextElementSibling` within a child list. -/
def nextSibDom (el : Nat) : List Dom → Option Dom
  | [] => none
  | c :: rest => if c.nid == el then rest.head? else nextSibDom el rest

/-- Helper for `prevSibDom`: scan remembering the element seen just before
the target. -/
def prevSibAux (el : Nat) (prev : Option Dom) : List Dom → Option Dom
  | [] => none
  | c :: rest => if c.nid == el then prev else prevSibAux el (some c) rest

/-- `el.previousElementSibling` within a child list. -/
def prevSibDom (el : Nat) (cs : List Dom) : Option Dom :=
  prevSibAux el none cs

/-- `parent.removeChild(el)`: the element is attached below the root, so
removing the first node with its identity from the root's descendant forest
models the detach. -/
def removeFromTree (elNid : Nat) (t : Dom) : Dom :=
  match t with
  | .node n tg cs a mt ml ch =>
    .node n tg cs a mt ml (removeFirstL (fun c => c.nid == elNid) ch).1

/-- Insert `x` immediately before the child with identity `r` (appending at
the end if no such child exists — unreachable for a live reference node). -/
def insertBeforeNid : List Dom → Nat → Dom → List Dom
  | [], _, x => [x]
  | c :: rest, r, x =>
    if c.nid == r then x :: c :: rest else c :: insertBeforeNid rest r x

/-- `parent.insertBefore(el, ref)` where `el` is already a child of
`parent`: detach `el` from the child list and re-insert it before `ref`,
or at the end when `ref` is `none` (the source inserts before the drop
indicator, which sits at the end of the child list in that case). -/
def moveInChildren (cs : List Dom) (eld : Dom) (ref : Option Nat) :
    List Dom :=
  let removed := (removeFirstL (fun c => c.nid == eld.nid) cs).1
  match ref with
  | some r => insertBeforeNid removed r eld
  | none => removed ++ [eld]

mutual
/-- Apply the release-time reorder inside the parent that has `el` as a
direct child. -/
def moveBeforeD (el : Nat) (ref : Option Nat) : Dom → Dom
  | .node n tg cs a mt ml ch =>
    match ch.find? (fun c => c.nid == el) with
    | some eld => .node n tg cs a mt ml (moveInChildren ch eld ref)
    | none => .node n tg cs a mt ml (moveBeforeL el ref ch)
def moveBeforeL (el : Nat) (ref : Option Nat) : List Dom → List Dom
  | [] => []
  | c :: rest => moveBeforeD el ref c :: moveBeforeL el ref rest
end

-- ===== Interaction session (setupIframeInteraction of App.tsx) =====

/-- `getBoundingClientRect` data for a node, as supplied by the external
render surface: vertical position and height (the drag logic only reads
`rect.top` and `rect.height`). -/
structure Rect where
  top : Int
  height : Int
deriving Repr, DecidableEq

mutual
/-- `el.style.marginTop = v + 'px'; el.style.marginLeft = h + 'px'` on the
element object `n`: update the margin fields of the first preorder node
with that identity. -/
def setMarginsD (n : Nat) (mt ml : Int) : Dom → Dom × Bool
  | .node m tg cs a mt0 ml0 ch =>
    if m == n then (.node m tg cs a mt ml ch, true)
    else
      let r := setMarginsL n mt ml ch
      (.node m tg cs a mt0 ml0 r.1, r.2)
def setMarginsL (n : Nat) (mt ml : Int) : List Dom → List Dom × Bool
  | [] => ([], false)
  | c :: rest =>
    let r := setMarginsD n mt ml c
    if r.2 then (r.1 :: rest, true)
    else
      let rr := setMarginsL n mt ml rest
      (r.1 :: rr.1, rr.2)
end

/-- The free-move margin write of `onMove`. -/
def markMargins (n : Nat) (mt ml : Int) (t : Dom) : Dom :=
  (setMarginsD n mt ml t).1

/-- The closure-captured `dragState` object of `setupIframeInteraction`.
The drop indicator element is not materialized in the tree: it is excluded
from every sibling computation by the source's own filter and removed
before the final insert, so only its position (`insertBefore`, with `none`
meaning end-of-children) and its existence (`hasIndicator`) are
observable. -/
structure DragState where
  active : Bool
  el : Option Nat
  startX : Int
  startY : Int
  shiftHeld : Bool
  origMarginTop : Int
  origMarginLeft : Int
  hasIndicator : Bool
  insertBefore : Option Nat
deriving Repr, DecidableEq

def idleDrag : DragState :=
  { active := false
    el := none
    startX := 0
    startY := 0
    shiftHeld := false
    origMarginTop := 0
    origMarginLeft := 0
    hasIndicator := false
    insertBefore := none }

/-- The interaction-relevant state: the live tree, `selectedElRef`, the
number of `pushHistory` calls fired so far, and the drag state. -/
structure Session where
  tree : Dom
  selectedEl : Option Nat
  commits : Nat
  drag : DragState

/-- `onMouseDown`: pressing on the selected element (the source returns
early when there is no selection or the press is outside it — the gestures
modelled here press on the selected element itself) records the pointer
origin, the shift state, and the element's current margins. -/
def mouseDown (s : Session) (x y : Int) (shift : Bool) : Session :=
  match s.selectedEl with
  | none => s
  | some sel =>
    { s with drag :=
      { active := false
        el := some sel
        startX := x
        startY := y
        shiftHeld := shift
        origMarginTop := ((findNodeD sel s.tree).map Dom.marginTop).getD 0
        origMarginLeft := ((findNodeD sel s.tree).map Dom.marginLeft).getD 0
        hasIndicator := false
        insertBefore := none } }

/-- `onMove`: activate past the 5px threshold; in free-move mode
(`me.shiftKey || dragState.shiftHeld`) set the dragged element's margins to
`original + delta`; otherwise compute the insertion point among the dragged
element's siblings inside its own parent — the first sibling whose vertical
midpoint lies below the pointer (`me.clientY < rect.top + rect.height / 2`,
written here in the exact integer form `2 * my < 2 * top + height`) — and
(re)place the indicator there. -/
def mouseMove (rects : Nat → Rect) (s : Session) (mx my : Int)
    (shiftKey : Bool) : Session :=
  match s.drag.el with
  | none => s
  | some el =>
    let dx := mx - s.drag.startX
    let dy := my - s.drag.startY
    let d1 := if !s.drag.active && (dx.natAbs > 5 || dy.natAbs > 5) then
        { s.drag with active := true } else s.drag
    if !d1.active then { s with drag := d1 }
    else if shiftKey || d1.shiftHeld then
      { s with
        tree := markMargins el (d1.origMarginTop + dy) (d1.origMarginLeft + dx) s.tree
        drag := d1 }
    else
      match findParentD el s.tree with
      | none => { s with drag := d1 }
      | some p =>
        let sibs := p.children.filter (fun c => c.nid != el)
        let ib := (sibs.find? (fun c =>
          decide (2 * my < 2 * (rects c.nid).top + (rects c.nid).height))).map Dom.nid
        { s with drag := { d1 with hasIndicator := true, insertBefore := ib } }

/-- `onUp`: if the drag activated, apply the structural move in reorder
mode (the mode check `!dragState.shiftHeld && !e.shiftKey` reads the shift
state of the originating mousedown event twice, so it equals
`!shiftHeld`), then fire exactly one `pushHistory`; in both cases reset the
drag state. -/
def mouseUp (s : Session) : Session :=
  match s.drag.el with
  | none => s
  | some el =>
    if s.drag.active then
      let t1 :=
        if !s.drag.shiftHeld then
          match findParentD el s.tree with
          | some _ =>
            if s.drag.hasIndicator then moveBeforeD el s.drag.insertBefore s.tree
            else s.tree
          | none => s.tree
        else s.tree
      { s with
        tree := t1
        commits := s.commits + 1
        drag := { s.drag with
          active := false
          el := none
          hasIndicator := false
          insertBefore := none } }
    else
      { s with drag := { s.drag with
          active := false
          el := none
          hasIndicator := false
          insertBefore := none } }

/-- The `Escape` branch of the keydown handler: `selectElement(null)`.
It shares no state with the drag closure, so the drag state is untouched. -/
def pressEscape (s : Session) : Session :=
  { s with tree := (selectElement s.tree none).1, selectedEl := none }

/-- `deleteSelected` from App.tsx: remember `nextElementSibling ||
previousElementSibling`, detach the element, fire the history commit, and
select the remembered sibling when it is editable, else clear the
selection. -/
def deleteSelected (s : Session) : Session :=
  match s.selectedEl with
  | none => s
  | some el =>
    match findParentD el s.tree with
    | none => s
    | some p =>
      let fb : Option Dom :=
        match nextSibDom el p.children with
        | some d => some d
        | none => prevSibDom el p.children
      let t1 := removeFromTree el s.tree
      let target : Option (Nat × String) :=
        match fb with
        | some d => if isEditable d.tag then some (d.nid, d.tag) else none
        | none => none
      let r := selectElement t1 target
      { s with tree := r.1, selectedEl := r.2, commits := s.commits + 1 }

-- ===== Concrete fixtures used by the scenario claims =====

/-- Fixture for the multi-select scenario: a body with three paragraphs. -/
def treeSel : Dom :=
  .node 0 "body" [] [] 0 0
    [.node 1 "p" [] [] 0 0 [], .node 2 "p" [] [] 0 0 [],
     .node 3 "p" [] [] 0 0 []]

/-- Clicking the three paragraphs and then the second one again (the
physical clicks of the spec's toggle-select scenario; the handler ignores
the modifier, so it is not a parameter). -/
def clickSeq : Dom × Option Nat :=
  let r1 := onClick treeSel (1, "p")
  let r2 := onClick r1.1 (2, "p")
  let r3 := onClick r2.1 (3, "p")
  onClick r3.1 (2, "p")

/-- Fixture for the reparent scenario of the spec:
`<body><div id="a"><p/><p/></div><section/></body>`, paragraphs 2 and 3,
section 4. -/
def treeRep : Dom :=
  .node 0 "body" [] []  0 0
    [.node 1 "div" [] [("id", "a")] 0 0
      [.node 2 "p" [] [] 0 0 [], .node 3 "p" [] [] 0 0 []],
     .node 4 "section" [] [] 0 0 []]

/-- Layout for `treeRep`: paragraph 2 at y∈[0,10], paragraph 3 at y∈[20,30],
the section at y∈[40,80]. -/
def rectsRep : Nat → Rect := fun n =>
  if n == 2 then { top := 0, height := 10 }
  else if n == 3 then { top := 20, height := 10 }
  else if n == 4 then { top := 40, height := 40 }
  else { top := 0, height := 100 }

/-- Session with paragraph 2 selected (the code's selection is single-node,
so only one of the two paragraphs can be selected). -/
def sessRep : Session :=
  { tree := treeRep, selectedEl := some 2, commits := 0, drag := idleDrag }

/-- The reparent-mode gesture of the spec scenario: press on the selected
paragraph, drag (without shift) to y = 60 — over the sibling section — and
release. -/
def dropOnSection : Session :=
  mouseUp (mouseMove rectsRep (mouseDown sessRep 5 5 false) 5 60 false)

/-- The same gesture released at y = 18, above paragraph 3's midpoint. -/
def dropAboveP3 : Session :=
  mouseUp (mouseMove rectsRep (mouseDown sessRep 5 5 false) 5 18 false)

/-- Fixture family for the free-move scenario: a span (identity 2) with
inline margins `(mt, ml)` between two siblings. -/
def treeSpan (mt ml : Int) : Dom :=
  .node 0 "body" [] [] 0 0
    [.node 1 "div" [] [] 0 0 [], .node 2 "span" [] [] mt ml [],
     .node 3 "p" [] [] 0 0 []]

def sessSpan (mt ml : Int) : Session :=
  { tree := treeSpan mt ml
    selectedEl := some 2
    commits := 0
    drag := idleDrag }

/-- Geometry is irrelevant in free-move mode. -/
def rectsAny : Nat → Rect := fun _ => { top := 0, height := 0 }

/-- The free-move gesture: press at (100,100) with shift held, drag to
(112, 92) — a delta of (12, -8) — and release. -/
def freeMoveRun (mt ml : Int) : Session :=
  mouseUp (mouseMove rectsAny (mouseDown (sessSpan mt ml) 100 100 true) 112 92 true)

/-- Fixture for the Escape claim: a selected, marker-carrying span with
margins (10, 20). -/
def treeEsc : Dom :=
  .node 0 "body" [] [] 0 0
    [.node 2 "span" ["__editor_selected__"] [("data-editor-selected", "true")] 10 20 []]

def sessEsc : Session :=
  { tree := treeEsc, selectedEl := some 2, commits := 0, drag := idleDrag }

/-- Mid-drag Escape: press with shift at (0,0), drag to (12,-8), press
Escape, then release. -/
def escMidDrag : Session :=
  pressEscape (mouseMove rectsAny (mouseDown sessEsc 0 0 true) 12 (-8) true)

def escThenUp : Session := mouseUp escMidDrag

/-- Fixture for the delete-fallback claim: a selected div whose next
element sibling is a (non-editable) `<br>`. -/
def treeDel : Dom :=
  .node 0 "body" [] []  0 0
    [.node 1 "div" ["__editor_selected__"] [("data-editor-selected", "true")] 0 0 [],
     .node 2 "br" [] [] 0 0 []]

def sessDel : Session :=
  { tree := treeDel, selectedEl := some 1, commits := 0, drag := idleDrag }

/-- Nodes for the delete-fallback witness: `<body><p/><div/><h2/></body>`
with the div selected. -/
def pW : Dom := .node 1 "p" [] [] 0 0 []

def dW : Dom := .node 2 "div" [] [] 0 0 []

def hW : Dom := .node 3 "h2" [] [] 0 0 []

def treeW : Dom := .node 0 "body" [] [] 0 0 [pW, dW, hW]

def sessW : Session :=
  { tree := treeW, selectedEl := some 2, commits := 0, drag := idleDrag }

/-- Witness document for the serializer claim: an html root whose head holds
the injected editor style element and a rewritten stylesheet, and whose body
holds a selected element with editor classes and a rewritten image. -/
def treeSer : Dom :=
  .node 0 "html" [] [] 0 0
    [.node 1 "head" [] [] 0 0
      [.node 2 "style" [] [("id", "__editor_styles__")] 0 0 [],
       .node 3 "style" [] [("data-editor-href", "a.css"), ("data-editor-resolved-path", "a.css")] 0 0 []],
     .node 4 "body" ["x", "__editor_hover__"] [("data-editor-selected", "true")] 0 0
      [.node 5 "img" [] [("src", "blob:x"), ("data-editor-original-src", "i.png")] 0 0 []]]

-- ===== Theorems =====

-- History stack (claims C3, C4, C5)

theorem pushHistory_idx (s : EditorState) :
    (pushHistory s).histIdx = ((pushHistory s).history.length : Int) - 1 := rfl

theorem pushHistory_len_le (s : EditorState) (h : s.history.length ≤ 50) :
    (pushHistory s).history.length ≤ 50 := by
  have hnh : (s.history.take (s.histIdx + 1).toNat ++ [s.doc]).length ≤ 51 := by
    simp only [List.length_append, List.length_take, List.length_singleton]
    omega
  unfold pushHistory
  dsimp only
  split
  · simpa using by omega
  · next hle =>
    simp only [not_lt] at hle
    simpa using hle

theorem runEdits_bounds (es : List String) :
    ∀ s : EditorState, s.history.length ≤ 50 →
      s.histIdx = (s.history.length : Int) - 1 →
      (runEdits s es).history.length ≤ 50 ∧
        (runEdits s es).histIdx = ((runEdits s es).history.length : Int) - 1 := by
  induction es with
  | nil => intro s h1 h2; exact ⟨h1, h2⟩
  | cons e es ih =>
    intro s h1 _h2
    have hstep : (applyEdit s e).history.length ≤ 50 :=
      pushHistory_len_le { s with doc := e } h1
    exact ih (applyEdit s e) hstep (pushHistory_idx _)

theorem pushHistory_history_of_full (s : EditorState)
    (hlen : s.history.length = 50)
    (hidx : s.histIdx = (s.history.length : Int) - 1) :
    (pushHistory s).history = s.history.drop 1 ++ [s.doc] := by
  unfold pushHistory
  dsimp only
  have htake : (s.histIdx + 1).toNat = s.history.length := by omega
  rw [htake, List.take_length]
  have hgt : (s.history ++ [s.doc]).length > 50 := by
    simp [hlen]
  rw [if_pos hgt]
  have h1 : (1 : Nat) ≤ s.history.length := by omega
  exact List.drop_append_of_le_length h1

/-- C4: starting from the pristine history state, after any sequence of
history commits the history holds at most 50 entries and the current index
points at the newest entry (`length - 1`); moreover, a commit fired when the
list is full (50 entries) evicts the oldest entry (FIFO) and appends the new
snapshot at the tail. -/
theorem historyCapacityInvariant (d0 : String) (es : List String) :
    (runEdits (initialState d0) es).history.length ≤ 50 ∧
    (runEdits (initialState d0) es).histIdx =
      ((runEdits (initialState d0) es).history.length : Int) - 1 ∧
    ((runEdits (initialState d0) es).history.length = 50 →
      ∀ m, (applyEdit (runEdits (initialState d0) es) m).history =
        (runEdits (initialState d0) es).history.drop 1 ++ [m]) := by
  obtain ⟨h1, h2⟩ := runEdits_bounds es (initialState d0) (by simp [initialState])
    (by simp [initialState])
  refine ⟨h1, h2, fun hfull m => ?_⟩
  have := pushHistory_history_of_full
    { runEdits (initialState d0) es with doc := m } (by simpa using hfull)
    (by simpa using h2)
  simpa [applyEdit] using this

set_option maxRecDepth 40000 in
/-- Witness for C4: a concrete run of 51 commits fills the history to
exactly 50 entries, and the next commit evicts the oldest entry. -/
theorem historyCapacityInvariant_witness :
    (runEdits (initialState "d") (List.replicate 51 "e")).history.length = 50 ∧
    (applyEdit (runEdits (initialState "d") (List.replicate 51 "e")) "x").history =
      (runEdits (initialState "d") (List.replicate 51 "e")).history.drop 1 ++ ["x"] :=
  ⟨by decide,
   (historyCapacityInvariant "d" (List.replicate 51 "e")).2.2 (by decide) "x"⟩

theorem pushHistory_getLast (s : EditorState) :
    (pushHistory s).history.getLast? = some s.doc := by
  unfold pushHistory
  dsimp only
  split
  · next hgt =>
    rcases hnil : s.history.take (s.histIdx + 1).toNat with _ | ⟨a, l⟩
    · rw [hnil] at hgt
      simp at hgt
    · simp [List.getLast?_concat]
  · exact List.getLast?_concat _

theorem runEdits_loaded_inv (es : List String) :
    ∀ s : EditorState, 1 ≤ s.history.length → s.history.length ≤ 50 →
      s.histIdx = (s.history.length : Int) - 1 →
      s.history.getLast? = some s.doc →
      1 ≤ (runEdits s es).history.length ∧
        (runEdits s es).history.length ≤ 50 ∧
        (runEdits s es).histIdx = ((runEdits s es).history.length : Int) - 1 ∧
        (runEdits s es).history.getLast? = some (runEdits s es).doc := by
  induction es with
  | nil => intro s h1 h2 h3 h4; exact ⟨h1, h2, h3, h4⟩
  | cons e es ih =>
    intro s _h1 h2 _h3 _h4
    have hlen : (applyEdit s e).history.length ≤ 50 :=
      pushHistory_len_le { s with doc := e } h2
    have hone : 1 ≤ (applyEdit s e).history.length := by
      unfold applyEdit pushHistory
      dsimp only
      split
      · next hgt => simp only [List.length_drop]; omega
      · simp
    have hlast : (applyEdit s e).history.getLast? = some (applyEdit s e).doc := by
      have := pushHistory_getLast { s with doc := e }
      simpa [applyEdit] using this
    exact ih (applyEdit s e) hone hlen (pushHistory_idx _) hlast

theorem loadState_eq (d0 : String) :
    loadState d0 = { history := [d0], histIdx := 0, doc := d0 } := rfl

theorem loadState_inv (d0 : String) :
    1 ≤ (loadState d0).history.length ∧ (loadState d0).history.length ≤ 50 ∧
      (loadState d0).histIdx = ((loadState d0).history.length : Int) - 1 ∧
      (loadState d0).history.getLast? = some (loadState d0).doc := by
  rw [loadState_eq]
  refine ⟨by simp, by simp, by simp, rfl⟩

theorem undo_noop (s : EditorState) (h : s.histIdx ≤ 0) : undo s = s := by
  unfold undo; rw [if_pos h]

theorem undo_spec (s : EditorState) (h : ¬ s.histIdx ≤ 0) :
    (undo s).history = s.history ∧ (undo s).histIdx = s.histIdx - 1 := by
  unfold undo; rw [if_neg h]; exact ⟨rfl, rfl⟩

theorem redo_noop (s : EditorState) (h : s.histIdx ≥ (s.history.length : Int) - 1) :
    redo s = s := by
  unfold redo; rw [if_pos h]

theorem redo_doc (s : EditorState) (h : ¬ s.histIdx ≥ (s.history.length : Int) - 1) :
    (redo s).doc = s.history.getD (s.histIdx + 1).toNat "" := by
  unfold redo; rw [if_neg h]

theorem getLast_getD (l : List String) (d : String) (hl : l.getLast? = some d) :
    l.getD (l.length - 1) "" = d := by
  have hg : l.getLast? = l[l.length - 1]? := List.getLast?_eq_getElem? l
  rw [List.getD_eq_getElem?_getD, ← hg, hl]
  rfl

/-- C3: after loading a document and applying any sequence of committed
edits, `undo()` followed by `redo()` leaves the live document's serialized
markup exactly as it was immediately after the edits. -/
theorem undoRedoRoundTrip (d0 : String) (es : List String) :
    (redo (undo (runEdits (loadState d0) es))).doc =
      (runEdits (loadState d0) es).doc := by
  obtain ⟨hload1, hload2, hload3, hload4⟩ := loadState_inv d0
  obtain ⟨h1, h2, h3, h4⟩ := runEdits_loaded_inv es (loadState d0) hload1 hload2 hload3 hload4
  set s := runEdits (loadState d0) es with hs
  by_cases hone : s.history.length = 1
  · -- single entry: both undo and redo are no-ops
    rw [undo_noop s (by omega), redo_noop s (by omega)]
  · -- at least two entries: undo steps back, redo returns to the tail
    have htwo : 2 ≤ s.history.length := by omega
    obtain ⟨huh, hui⟩ := undo_spec s (by omega)
    have hrd : (redo (undo s)).doc =
        (undo s).history.getD ((undo s).histIdx + 1).toNat "" := by
      refine redo_doc (undo s) ?_
      rw [huh, hui]
      omega
    rw [hrd, huh, hui]
    have hidx : (s.histIdx - 1 + 1).toNat = s.history.length - 1 := by omega
    rw [hidx]
    exact getLast_getD s.history s.doc h4

/-- Counterexample to C5: the code's `pushHistory` has no content-identity
suppression — committing the same markup twice in a row stores two
consecutive identical snapshots. -/
theorem pushNoSuppression_counterexample :
    (applyEdit (applyEdit (loadState "a") "b") "b").history = ["a", "b", "b"] ∧
    (applyEdit (applyEdit (loadState "a") "b") "b").history.getD 1 "" =
      (applyEdit (applyEdit (loadState "a") "b") "b").history.getD 2 "" := by
  constructor
  · rfl
  · rfl

/-- C5 (amended): a history push always appends the current serialization as
the newest entry, even when it is content-identical to the current snapshot
(no suppression), so consecutive identical entries do occur — committing the
same markup twice after a load yields it twice in a row. -/
theorem pushAlwaysAppends :
    (∀ s : EditorState, (pushHistory s).history.getLast? = some s.doc) ∧
    (∀ d0 m : String, (applyEdit (applyEdit (loadState d0) m) m).history = [d0, m, m]) := by
  refine ⟨pushHistory_getLast, fun d0 m => ?_⟩
  rfl

-- Induction principles for the nested Dom tree

theorem domListInd {P : List Dom → Prop}
    (hnil : P [])
    (hcons : ∀ n tg cs a mt ml ch rest, P ch → P rest →
      P (.node n tg cs a mt ml ch :: rest)) :
    ∀ l, P l
  | [] => hnil
  | .node n tg cs a mt ml ch :: rest =>
    hcons n tg cs a mt ml ch rest (domListInd hnil hcons ch)
      (domListInd hnil hcons rest)
termination_by l => sizeOf l
decreasing_by
  · simp only [List.cons.sizeOf_spec, Dom.node.sizeOf_spec]
    omega
  · simp only [List.cons.sizeOf_spec]
    omega


-- Attribute-map lemmas

theorem find?_map_replace_self (a : List (String × String)) (k v : String)
    (hany : a.any (fun p => p.1 == k) = true) :
    (a.map (fun p => if p.1 == k then (k, v) else p)).find?
      (fun p => p.1 == k) = some (k, v) := by
  induction a with
  | nil => simp at hany
  | cons p a ih =>
    by_cases hp : (p.1 == k) = true
    · simp only [List.map_cons, hp, if_true]
      exact List.find?_cons_of_pos _ (by simp)
    · have hp' : (p.1 == k) = false := by simpa using hp
      simp only [List.map_cons, hp', if_false]
      rw [List.find?_cons_of_neg _ (by simp [hp'])]
      apply ih
      simpa [hp'] using hany

theorem find?_map_replace_ne (a : List (String × String)) (k v k' : String)
    (h : k' ≠ k) :
    (a.map (fun p => if p.1 == k then (k, v) else p)).find?
      (fun p => p.1 == k') = a.find? (fun p => p.1 == k') := by
  induction a with
  | nil => rfl
  | cons p a ih =>
    by_cases hp : (p.1 == k) = true
    · have hp1 : p.1 = k := by simpa using hp
      simp only [List.map_cons, hp, if_true]
      rw [List.find?_cons_of_neg _ (by simp [Ne.symm h]),
        List.find?_cons_of_neg _ (by simp [hp1, Ne.symm h])]
      exact ih
    · have hp' : (p.1 == k) = false := by simpa using hp
      simp only [List.map_cons, hp', Bool.false_eq_true, if_false]
      by_cases hq : (p.1 == k') = true
      · simp only [List.find?_cons, hq]
      · have hq' : (p.1 == k') = false := by simpa using hq
        simp only [List.find?_cons, hq']
        exact ih

theorem getAttr_setAttr_self (a : List (String × String)) (k v : String) :
    getAttr (setAttr a k v) k = some v := by
  unfold setAttr
  by_cases hany : a.any (fun p => p.1 == k) = true
  · rw [if_pos hany]
    unfold getAttr
    rw [find?_map_replace_self a k v hany]
    rfl
  · rw [if_neg hany]
    unfold getAttr
    have hnone : a.find? (fun p => p.1 == k) = none := by
      rw [List.find?_eq_none]
      intro x hx hpx
      exact hany (List.any_of_mem hx hpx)
    rw [List.find?_append, hnone]
    simp

theorem getAttr_setAttr_ne (a : List (String × String)) (k v k' : String)
    (h : k' ≠ k) :
    getAttr (setAttr a k v) k' = getAttr a k' := by
  unfold setAttr
  by_cases hany : a.any (fun p => p.1 == k) = true
  · rw [if_pos hany]
    unfold getAttr
    rw [find?_map_replace_ne a k v k' h]
  · rw [if_neg hany]
    unfold getAttr
    rw [List.find?_append]
    have hk : (List.find? (fun p => p.1 == k') [(k, v)]) = none := by
      simp [Ne.symm h]
    rw [hk]
    simp

theorem getAttr_removeAttr_self (a : List (String × String)) (k : String) :
    getAttr (removeAttr a k) k = none := by
  unfold getAttr removeAttr
  rw [Option.map_eq_none', List.find?_eq_none]
  intro x hx
  have := (List.mem_filter.mp hx).2
  simpa using this

theorem getAttr_removeAttr_ne (a : List (String × String)) (k k' : String)
    (h : k' ≠ k) :
    getAttr (removeAttr a k) k' = getAttr a k' := by
  unfold getAttr removeAttr
  congr 1
  induction a with
  | nil => rfl
  | cons p a ih =>
    by_cases hp : (p.1 == k) = true
    · have hp1 : p.1 = k := by simpa using hp
      have : (p.1 != k) = false := by simp [hp1]
      simp only [List.filter_cons, this, if_false]
      rw [List.find?_cons_of_neg _ (by simp [hp1, Ne.symm h])]
      exact ih
    · have hp' : (p.1 != k) = true := by simpa using hp
      simp only [List.filter_cons, hp', if_true]
      by_cases hq : (p.1 == k') = true
      · simp only [List.find?_cons, hq]
      · have hq' : (p.1 == k') = false := by simpa using hq
        simp only [List.find?_cons, hq']
        exact ih

-- Selection lemmas (claims C10, C2)

theorem contains_classListAdd (cs : List String) (tok : String) :
    (classListAdd cs tok).contains tok = true := by
  unfold classListAdd
  by_cases h : cs.contains tok = true
  · rw [if_pos h]; exact h
  · rw [if_neg h]
    simp

theorem clearSelectedL_noSelAttr (l : List Dom) :
    noSelAttrL (clearSelectedL l) = true := by
  induction l using domListInd with
  | hnil => rfl
  | hcons n tg cs a mt ml ch rest ihch ihrest =>
    by_cases ha : hasSelAttr a = true
    · simp only [clearSelectedL, clearSelectedD, ha, if_true, noSelAttrL,
        noSelAttrD, Bool.and_eq_true]
      refine ⟨⟨?_, ?_⟩, ?_⟩
      · unfold hasSelAttr
        rw [getAttr_removeAttr_self]
        rfl
      · exact ihch
      · exact ihrest
    · have ha' : hasSelAttr a = false := by simpa using ha
      simp only [clearSelectedL, clearSelectedD, ha', Bool.false_eq_true,
        if_false, noSelAttrL, noSelAttrD, Bool.and_eq_true]
      exact ⟨⟨by simp [ha'], ihch⟩, ihrest⟩

theorem clearSelectedD_noSelAttr (t : Dom) :
    noSelAttrD (clearSelectedD t) = true := by
  cases t with
  | node n tg cs a mt ml ch =>
    have := clearSelectedL_noSelAttr [Dom.node n tg cs a mt ml ch]
    simpa [clearSelectedL, noSelAttrL] using this

theorem noSelAttr_selMarkedL (l : List Dom) (h : noSelAttrL l = true) :
    selMarkedL l = [] := by
  induction l using domListInd with
  | hnil => rfl
  | hcons n tg cs a mt ml ch rest ihch ihrest =>
    simp only [noSelAttrL, noSelAttrD, Bool.and_eq_true] at h
    obtain ⟨⟨ha, hch⟩, hrest⟩ := h
    have ha' : hasSelAttr a = false := by
      cases hv : hasSelAttr a
      · rfl
      · rw [hv] at ha; simp at ha
    simp only [selMarkedL, selMarkedD, ha', Bool.false_and, if_false]
    rw [ihch hch, ihrest hrest]
    rfl

theorem noSelAttr_selMarkedD (t : Dom) (h : noSelAttrD t = true) :
    selMarkedD t = [] := by
  cases t with
  | node n tg cs a mt ml ch =>
    have := noSelAttr_selMarkedL [Dom.node n tg cs a mt ml ch]
      (by simpa [noSelAttrL] using h)
    simpa [selMarkedL] using this

theorem markSelectedL_found (n : Nat) (l : List Dom) :
    (markSelectedL n l).2 = containsNidL n l := by
  induction l using domListInd with
  | hnil => rfl
  | hcons m tg cs a mt ml ch rest ihch ihrest =>
    by_cases hm : (m == n) = true
    · simp [markSelectedL, markSelectedD, containsNidL, containsNidD, hm]
    · have hm' : (m == n) = false := by simpa using hm
      simp only [markSelectedL, markSelectedD, hm', Bool.false_eq_true, if_false,
        containsNidL, containsNidD, Bool.false_or]
      rw [← ihch]
      cases hf : (markSelectedL n ch).2
      · simp only [Bool.false_eq_true, if_false]
        rw [← ihrest]
        simp
      · simp

theorem markSelectedL_marks (n : Nat) (l : List Dom) (h : noSelAttrL l = true) :
    selMarkedL (markSelectedL n l).1 =
      if containsNidL n l then [n] else [] := by
  induction l using domListInd with
  | hnil => rfl
  | hcons m tg cs a mt ml ch rest ihch ihrest =>
    simp only [noSelAttrL, noSelAttrD, Bool.and_eq_true] at h
    obtain ⟨⟨ha, hch⟩, hrest⟩ := h
    have ha' : hasSelAttr a = false := by
      cases hv : hasSelAttr a
      · rfl
      · rw [hv] at ha; simp at ha
    by_cases hm : (m == n) = true
    · have hmn : m = n := by simpa using hm
      simp only [markSelectedL, markSelectedD, hm, if_true, selMarkedL,
        selMarkedD, containsNidL, containsNidD]
      have hsel : hasSelAttr (setAttr a "data-editor-selected" "true") = true := by
        unfold hasSelAttr
        rw [getAttr_setAttr_self]
        rfl
      rw [hsel, contains_classListAdd]
      simp only [Bool.true_and, if_true, hmn]
      rw [noSelAttr_selMarkedL ch hch, noSelAttr_selMarkedL rest hrest]
      simp [hm]
    · have hm' : (m == n) = false := by simpa using hm
      simp only [markSelectedL, markSelectedD, hm', Bool.false_eq_true, if_false]
      cases hf : (markSelectedL n ch).2
      · have hcont : containsNidL n ch = false := by
          rw [← markSelectedL_found]; exact hf
        simp only [hf, Bool.false_eq_true, if_false, selMarkedL, selMarkedD, ha',
          Bool.false_and, if_false, List.nil_append]
        rw [ihch hch, hcont]
        simp only [Bool.false_eq_true, if_false, List.nil_append]
        rw [ihrest hrest]
        simp [containsNidL, containsNidD, hm', hcont]
      · have hcont : containsNidL n ch = true := by
          rw [← markSelectedL_found]; exact hf
        simp only [hf, if_true, selMarkedL, selMarkedD, ha', Bool.false_and,
          if_false, List.nil_append]
        rw [ihch hch, hcont]
        simp only [if_true]
        rw [noSelAttr_selMarkedL rest hrest]
        simp [containsNidL, containsNidD, hm', hcont]

theorem markSelectedD_marks (n : Nat) (t : Dom) (h : noSelAttrD t = true) :
    selMarkedD (markSelectedD n t).1 =
      if containsNidD n t then [n] else [] := by
  cases t with
  | node m tg cs a mt ml ch =>
    have hl := markSelectedL_marks n [Dom.node m tg cs a mt ml ch]
      (by simpa [noSelAttrL] using h)
    by_cases hf : (markSelectedD n (Dom.node m tg cs a mt ml ch)).2 = true
    · simpa [markSelectedL, selMarkedL, containsNidL, hf] using hl
    · have hf' : (markSelectedD n (Dom.node m tg cs a mt ml ch)).2 = false := by
        simpa using hf
      simpa [markSelectedL, selMarkedL, containsNidL, hf'] using hl

theorem containsNid_clearSelectedL (n : Nat) (l : List Dom) :
    containsNidL n (clearSelectedL l) = containsNidL n l := by
  induction l using domListInd with
  | hnil => rfl
  | hcons m tg cs a mt ml ch rest ihch ihrest =>
    by_cases ha : hasSelAttr a = true
    · simp only [clearSelectedL, clearSelectedD, ha, if_true, containsNidL,
        containsNidD, ihch, ihrest]
    · have ha' : hasSelAttr a = false := by simpa using ha
      simp only [clearSelectedL, clearSelectedD, ha', Bool.false_eq_true,
        if_false, containsNidL, containsNidD, ihch, ihrest]

theorem containsNid_clearSelectedD (n : Nat) (t : Dom) :
    containsNidD n (clearSelectedD t) = containsNidD n t := by
  cases t with
  | node m tg cs a mt ml ch =>
    have := containsNid_clearSelectedL n [Dom.node m tg cs a mt ml ch]
    simpa [clearSelectedL, containsNidL] using this

/-- C10: after every `selectElement` call, the nodes carrying both selection
markers (the `data-editor-selected` attribute and the `__editor_selected__`
class) are exactly the selected target — empty for `selectElement(null)` or
a non-editable target — so at most one element is ever marked, and every
previously marked element has been stripped first. -/
theorem selectElementSingleSelection (t : Dom) (target : Option (Nat × String)) :
    selMarkedD (selectElement t target).1 =
      (match target with
       | none => []
       | some (n, tg) => if isEditable tg && containsNidD n t then [n] else []) ∧
    (selMarkedD (selectElement t target).1).length ≤ 1 := by
  have hclear : noSelAttrD (clearSelectedD t) = true := clearSelectedD_noSelAttr t
  match target with
  | none =>
    refine ⟨?_, ?_⟩
    · simp only [selectElement]
      exact noSelAttr_selMarkedD _ hclear
    · simp only [selectElement]
      rw [noSelAttr_selMarkedD _ hclear]
      simp
  | some (n, tg) =>
    by_cases he : isEditable tg = true
    · have hmain : selMarkedD (selectElement t (some (n, tg))).1 =
          if containsNidD n t then [n] else [] := by
        simp only [selectElement, he, if_true]
        rw [markSelectedD_marks n _ hclear, containsNid_clearSelectedD]
      refine ⟨?_, ?_⟩
      · rw [hmain]
        simp [he]
      · rw [hmain]
        by_cases hc : containsNidD n t = true
        · simp [hc]
        · have hc' : containsNidD n t = false := by simpa using hc
          simp [hc']
    · have he' : isEditable tg = false := by simpa using he
      have hmain : selMarkedD (selectElement t (some (n, tg))).1 = [] := by
        simp only [selectElement, he', Bool.false_eq_true, if_false]
        exact noSelAttr_selMarkedD _ hclear
      refine ⟨?_, ?_⟩
      · rw [hmain]
        simp [he']
      · rw [hmain]
        simp

-- Click-to-select (claim C2)

/-- Counterexample to C2: the click handler has no multi-select toggle —
after clicking nodes 1, 2, 3 and then 2 again (with or without a modifier,
which the handler never reads), the selection is exactly node 2, not
{1, 3} with 3 primary. -/
theorem multiSelectToggle_counterexample :
    clickSeq.2 = some 2 ∧ selMarkedD clickSeq.1 = [2] := by
  exact ⟨rfl, rfl⟩

/-- C2 (amended): selection is single-node and clicking always replaces it:
each click in the scenario leaves exactly the clicked node selected (and
primary, being the only member), so the final state after clicking
1, 2, 3, 2 is exactly node 2. -/
theorem clickReplacesSelection :
    (onClick treeSel (1, "p")).2 = some 1 ∧
    selMarkedD (onClick treeSel (1, "p")).1 = [1] ∧
    (onClick (onClick treeSel (1, "p")).1 (2, "p")).2 = some 2 ∧
    selMarkedD (onClick (onClick treeSel (1, "p")).1 (2, "p")).1 = [2] ∧
    (onClick (onClick (onClick treeSel (1, "p")).1 (2, "p")).1 (3, "p")).2 = some 3 ∧
    selMarkedD (onClick (onClick (onClick treeSel (1, "p")).1 (2, "p")).1 (3, "p")).1 = [3] ∧
    clickSeq.2 = some 2 ∧
    selMarkedD clickSeq.1 = [2] := by
  exact ⟨rfl, rfl, rfl, rfl, rfl, rfl, rfl, rfl⟩

-- Drag gestures (claims C1, C6, C7)

/-- C7: dragging the selected span with the free-move modifier (shift) held
by a pointer delta of (12, -8) past the threshold and releasing sets its
margins to original + delta — marginLeft grows by exactly 12 and marginTop
by exactly -8 — leaves the tree structure (parent and sibling order)
unchanged, and fires exactly one history commit. -/
theorem freeMoveAppliesOffsets (mt ml : Int) :
    (freeMoveRun mt ml).tree = treeSpan (mt + (-8)) (ml + 12) ∧
    (freeMoveRun mt ml).commits = 1 ∧
    (freeMoveRun mt ml).selectedEl = some 2 := by
  exact ⟨rfl, rfl, rfl⟩

/-- Counterexample to C1: the reorder branch of the drag never hit-tests for
a new container — releasing the dragged paragraph over the sibling
`<section>` leaves the section empty and merely moves the paragraph to the
end of its original parent `div#a` (and only a single node can be dragged,
since the selection is single-node). -/
theorem reparentAcrossContainers_counterexample :
    ((findNodeD 4 dropOnSection.tree).map (fun d => d.children.map Dom.nid)) = some [] ∧
    ((findNodeD 1 dropOnSection.tree).map (fun d => d.children.map Dom.nid)) = some [3, 2] ∧
    dropOnSection.commits = 1 := by
  exact ⟨rfl, rfl, rfl⟩

/-- C1 (amended): in reparent (non-shift) mode the candidate container is
always the dragged node's own parent: each move computes the insertion point
among the node's current siblings inside that parent (the first sibling
whose vertical midpoint lies below the pointer, else end-of-children), and
release inserts the single dragged node there — dropping over the sibling
section appends the paragraph at the end of `div#a` (order [3, 2]), while
releasing above paragraph 3's midpoint re-inserts it before paragraph 3
(order [2, 3]); each gesture records exactly one history commit and the
section never receives the node. -/
theorem reorderWithinOriginalParent :
    (mouseMove rectsRep (mouseDown sessRep 5 5 false) 5 60 false).drag.insertBefore = none ∧
    ((findNodeD 1 dropOnSection.tree).map (fun d => d.children.map Dom.nid)) = some [3, 2] ∧
    ((findNodeD 4 dropOnSection.tree).map (fun d => d.children.map Dom.nid)) = some [] ∧
    dropOnSection.commits = 1 ∧
    (mouseMove rectsRep (mouseDown sessRep 5 5 false) 5 18 false).drag.insertBefore = some 3 ∧
    ((findNodeD 1 dropAboveP3.tree).map (fun d => d.children.map Dom.nid)) = some [2, 3] ∧
    ((findNodeD 4 dropAboveP3.tree).map (fun d => d.children.map Dom.nid)) = some [] ∧
    dropAboveP3.commits = 1 := by
  exact ⟨rfl, rfl, rfl, rfl, rfl, rfl, rfl, rfl⟩

/-- Counterexample to C6: Escape does not cancel an in-progress drag — after
pressing Escape mid-drag the drag is still active, and releasing then keeps
the already-applied free-move offsets (margins (10,20) became (2,32) for the
(12,-8) drag) and fires a history commit. -/
theorem escapeDuringDrag_counterexample :
    escMidDrag.drag.active = true ∧
    escThenUp.commits = 1 ∧
    ((findNodeD 2 escThenUp.tree).map (fun d => (d.marginTop, d.marginLeft))) = some (2, 32) := by
  exact ⟨rfl, rfl, rfl⟩

/-- C6 (amended): Escape only clears the selection (markers stripped,
`selectedElRef` nulled); the drag closure is untouched, so the gesture stays
active and on release its pending free-move offsets remain applied and one
history commit fires. -/
theorem escapeClearsSelectionOnly :
    escMidDrag.selectedEl = none ∧
    selMarkedD escMidDrag.tree = [] ∧
    escMidDrag.drag.active = true ∧
    escMidDrag.drag.el = some 2 ∧
    escThenUp.commits = 1 ∧
    ((findNodeD 2 escThenUp.tree).map (fun d => (d.marginTop, d.marginLeft))) = some (2, 32) := by
  exact ⟨rfl, rfl, rfl, rfl, rfl, rfl⟩

-- Delete fallback (claim C8)

/-- Counterexample to C8: deleting the selected div whose next element
sibling is a `<br>` leaves the selection empty even though a sibling
fallback exists — the code additionally requires the fallback to be
editable, and `br` is not. -/
theorem deleteFallback_counterexample :
    nextSibDom 1 treeDel.children = some (.node 2 "br" [] [] 0 0 []) ∧
    (deleteSelected sessDel).selectedEl = none ∧
    containsNidD 2 (deleteSelected sessDel).tree = true ∧
    (deleteSelected sessDel).commits = 1 := by
  exact ⟨rfl, rfl, rfl, rfl⟩

theorem getLast?_cons_eq (c : Dom) (l : List Dom) :
    (c :: l).getLast? =
      match l.getLast? with
      | some d => some d
      | none => some c := by
  induction l generalizing c with
  | nil => rfl
  | cons e l ih =>
    rw [List.getLast?_cons_cons]
    rw [ih e]
    cases hv : l.getLast? <;> rfl

theorem nextSib_split (el : Nat) (pre post : List Dom) (eld : Dom)
    (held : eld.nid = el) (hpre : ∀ c ∈ pre, c.nid ≠ el) :
    nextSibDom el (pre ++ eld :: post) = post.head? := by
  induction pre with
  | nil =>
    simp only [List.nil_append, nextSibDom, held]
    rw [if_pos (by simp)]
  | cons c pre ih =>
    have hc : (c.nid == el) = false := by
      simpa using hpre c (by simp)
    simp only [List.cons_append, nextSibDom, hc, Bool.false_eq_true, if_false]
    exact ih (fun d hd => hpre d (by simp [hd]))

theorem prevSibAux_split (el : Nat) (post : List Dom) (eld : Dom)
    (held : eld.nid = el) :
    ∀ (pre : List Dom) (acc : Option Dom), (∀ c ∈ pre, c.nid ≠ el) →
      prevSibAux el acc (pre ++ eld :: post) =
        match pre.getLast? with
        | some d => some d
        | none => acc := by
  intro pre
  induction pre with
  | nil =>
    intro acc _
    simp only [List.nil_append, prevSibAux, held]
    rw [if_pos (by simp)]
    rfl
  | cons c pre ih =>
    intro acc hpre
    have hc : (c.nid == el) = false := by
      simpa using hpre c (by simp)
    simp only [List.cons_append, prevSibAux, hc, Bool.false_eq_true, if_false,
      List.append_eq]
    rw [ih (some c) (fun d hd => hpre d (by simp [hd]))]
    rw [getLast?_cons_eq]
    cases hv : pre.getLast? <;> rfl

theorem prevSib_split (el : Nat) (pre post : List Dom) (eld : Dom)
    (held : eld.nid = el) (hpre : ∀ c ∈ pre, c.nid ≠ el) :
    prevSibDom el (pre ++ eld :: post) = pre.getLast? := by
  unfold prevSibDom
  rw [prevSibAux_split el post eld held pre none hpre]
  cases hv : pre.getLast? <;> rfl

theorem selectElement_snd (t : Dom) (target : Option (Nat × String)) :
    (selectElement t target).2 =
      match target with
      | none => none
      | some (n, tg) => if isEditable tg then some n else none := by
  match target with
  | none => rfl
  | some (n, tg) =>
    by_cases he : isEditable tg = true
    · simp [selectElement, he]
    · have he' : isEditable tg = false := by simpa using he
      simp [selectElement, he']

/-- C8 (amended): deleting the selected node leaves the selection at the
deterministic sibling fallback — the deleted node's next element sibling,
else its previous element sibling — provided that fallback is editable;
when no sibling exists, or the fallback's tag is non-editable, the
selection is empty. -/
theorem deleteSelectedFallback (s : Session) (el : Nat) (pd eld : Dom)
    (pre post : List Dom)
    (hsel : s.selectedEl = some el)
    (hpar : findParentD el s.tree = some pd)
    (hch : pd.children = pre ++ eld :: post)
    (held : eld.nid = el)
    (hpre : ∀ c ∈ pre, c.nid ≠ el) :
    (deleteSelected s).selectedEl =
      (match (match post.head? with
              | some d => some d
              | none => pre.getLast?) with
       | some d => if isEditable d.tag then some d.nid else none
       | none => none) := by
  unfold deleteSelected
  rw [hsel]
  simp only [hpar]
  rw [hch, nextSib_split el pre post eld held hpre]
  cases hh : post.head? with
  | some d =>
    simp only []
    rw [selectElement_snd]
    by_cases he : isEditable d.tag = true
    · simp [he]
    · have he' : isEditable d.tag = false := by simpa using he
      simp [he']
  | none =>
    simp only []
    rw [prevSib_split el pre post eld held hpre]
    cases hl : pre.getLast? with
    | some d =>
      simp only []
      rw [selectElement_snd]
      by_cases he : isEditable d.tag = true
      · simp [he]
      · have he' : isEditable d.tag = false := by simpa using he
        simp [he']
    | none =>
      simp only []
      rw [selectElement_snd]

/-- Witness for C8 (amended): deleting the selected div of
`<body><p/><div/><h2/></body>` selects its next element sibling, the
editable `<h2>`. -/
theorem deleteSelectedFallback_witness :
    sessW.selectedEl = some 2 ∧
    findParentD 2 sessW.tree = some treeW ∧
    treeW.children = [pW] ++ dW :: [hW] ∧
    dW.nid = 2 ∧
    (∀ c ∈ [pW], c.nid ≠ 2) ∧
    (deleteSelected sessW).selectedEl = some 3 :=
  ⟨rfl, rfl, rfl, rfl, by decide,
   deleteSelectedFallback sessW 2 treeW dW [pW] [hW] rfl rfl rfl rfl (by decide)⟩

-- Serializer lemmas (claim C9)

theorem getAttr_restoreOne_marker (a : List (String × String)) (m tgt : String)
    (h : m ≠ tgt) :
    getAttr (restoreOne a m tgt) m = none := by
  unfold restoreOne
  cases hv : getAttr a m with
  | none => exact hv
  | some v => rw [getAttr_removeAttr_self]

theorem getAttr_restoreOne_target (a : List (String × String)) (m tgt : String)
    (h : tgt ≠ m) :
    getAttr (restoreOne a m tgt) tgt =
      match getAttr a m with
      | some v => some v
      | none => getAttr a tgt := by
  unfold restoreOne
  cases hv : getAttr a m with
  | none => rfl
  | some v => rw [getAttr_removeAttr_ne _ _ _ h, getAttr_setAttr_self]

theorem getAttr_restoreOne_other (a : List (String × String)) (m tgt x : String)
    (h1 : x ≠ m) (h2 : x ≠ tgt) :
    getAttr (restoreOne a m tgt) x = getAttr a x := by
  unfold restoreOne
  cases hv : getAttr a m with
  | none => rfl
  | some v => rw [getAttr_removeAttr_ne _ _ _ h1, getAttr_setAttr_ne _ _ _ _ h2]

theorem restoreAttrs_src (a : List (String × String)) :
    getAttr (restoreAttrs a) "src" =
      match getAttr a "data-editor-original-src" with
      | some v => some v
      | none => getAttr a "src" := by
  unfold restoreAttrs
  rw [getAttr_removeAttr_ne _ _ _ (by decide)]
  rw [getAttr_restoreOne_other _ "data-editor-original-style" "style" "src"
    (by decide) (by decide)]
  rw [getAttr_restoreOne_other _ "data-editor-original-href" "href" "src"
    (by decide) (by decide)]
  exact getAttr_restoreOne_target a "data-editor-original-src" "src" (by decide)

theorem restoreAttrs_href (a : List (String × String)) :
    getAttr (restoreAttrs a) "href" =
      match getAttr a "data-editor-original-href" with
      | some v => some v
      | none => getAttr a "href" := by
  unfold restoreAttrs
  rw [getAttr_removeAttr_ne _ _ _ (by decide)]
  rw [getAttr_restoreOne_other _ "data-editor-original-style" "style" "href"
    (by decide) (by decide)]
  rw [getAttr_restoreOne_target _ "data-editor-original-href" "href" (by decide)]
  rw [getAttr_restoreOne_other a "data-editor-original-src" "src"
    "data-editor-original-href" (by decide) (by decide)]
  rw [getAttr_restoreOne_other a "data-editor-original-src" "src" "href"
    (by decide) (by decide)]

theorem restoreAttrs_style (a : List (String × String)) :
    getAttr (restoreAttrs a) "style" =
      match getAttr a "data-editor-original-style" with
      | some v => some v
      | none => getAttr a "style" := by
  unfold restoreAttrs
  rw [getAttr_removeAttr_ne _ _ _ (by decide)]
  rw [getAttr_restoreOne_target _ "data-editor-original-style" "style" (by decide)]
  rw [getAttr_restoreOne_other _ "data-editor-original-href" "href"
    "data-editor-original-style" (by decide) (by decide)]
  rw [getAttr_restoreOne_other a "data-editor-original-src" "src"
    "data-editor-original-style" (by decide) (by decide)]
  rw [getAttr_restoreOne_other _ "data-editor-original-href" "href" "style"
    (by decide) (by decide)]
  rw [getAttr_restoreOne_other a "data-editor-original-src" "src" "style"
    (by decide) (by decide)]

theorem restoreAttrs_markers (a : List (String × String)) :
    getAttr (restoreAttrs a) "data-editor-original-src" = none ∧
    getAttr (restoreAttrs a) "data-editor-original-href" = none ∧
    getAttr (restoreAttrs a) "data-editor-original-style" = none ∧
    getAttr (restoreAttrs a) "data-editor-selected" = none := by
  refine ⟨?_, ?_, ?_, ?_⟩
  · unfold restoreAttrs
    rw [getAttr_removeAttr_ne _ _ _ (by decide)]
    rw [getAttr_restoreOne_other _ "data-editor-original-style" "style"
      "data-editor-original-src" (by decide) (by decide)]
    rw [getAttr_restoreOne_other _ "data-editor-original-href" "href"
      "data-editor-original-src" (by decide) (by decide)]
    exact getAttr_restoreOne_marker a "data-editor-original-src" "src" (by decide)
  · unfold restoreAttrs
    rw [getAttr_removeAttr_ne _ _ _ (by decide)]
    rw [getAttr_restoreOne_other _ "data-editor-original-style" "style"
      "data-editor-original-href" (by decide) (by decide)]
    exact getAttr_restoreOne_marker _ "data-editor-original-href" "href" (by decide)
  · unfold restoreAttrs
    rw [getAttr_removeAttr_ne _ _ _ (by decide)]
    exact getAttr_restoreOne_marker _ "data-editor-original-style" "style" (by decide)
  · unfold restoreAttrs
    exact getAttr_removeAttr_self _ _

theorem restoreAttrs_id (a : List (String × String)) :
    getAttr (restoreAttrs a) "id" = getAttr a "id" := by
  unfold restoreAttrs
  rw [getAttr_removeAttr_ne _ _ _ (by decide)]
  rw [getAttr_restoreOne_other _ "data-editor-original-style" "style" "id"
    (by decide) (by decide)]
  rw [getAttr_restoreOne_other _ "data-editor-original-href" "href" "id"
    (by decide) (by decide)]
  rw [getAttr_restoreOne_other a "data-editor-original-src" "src" "id"
    (by decide) (by decide)]

theorem restoreAttrs_dataHref (a : List (String × String)) :
    getAttr (restoreAttrs a) "data-editor-href" =
      getAttr a "data-editor-href" := by
  unfold restoreAttrs
  rw [getAttr_removeAttr_ne _ _ _ (by decide)]
  rw [getAttr_restoreOne_other _ "data-editor-original-style" "style"
    "data-editor-href" (by decide) (by decide)]
  rw [getAttr_restoreOne_other _ "data-editor-original-href" "href"
    "data-editor-href" (by decide) (by decide)]
  rw [getAttr_restoreOne_other a "data-editor-original-src" "src"
    "data-editor-href" (by decide) (by decide)]

theorem stripEditorClasses_clean (cs : List String) :
    (stripEditorClasses cs).all (fun c => !(c.startsWith "__editor_")) = true := by
  unfold stripEditorClasses
  dsimp only
  split
  · rfl
  · rw [List.all_eq_true]
    intro c hc
    exact (List.mem_filter.mp hc).2

theorem noMarksB_restored (tg : String) (cs : List String)
    (a : List (String × String))
    (hsh : (tg == "style") = true → getAttr a "data-editor-href" = none) :
    noMarksB tg (stripEditorClasses cs) (restoreAttrs a) = true := by
  obtain ⟨m1, m2, m3, m4⟩ := restoreAttrs_markers a
  unfold noMarksB
  rw [m1, m2, m3, m4, restoreAttrs_dataHref a, stripEditorClasses_clean]
  by_cases hst : (tg == "style") = true
  · rw [hsh hst, hst]
    rfl
  · have hst' : (tg == "style") = false := by simpa using hst
    rw [hst']
    rfl

theorem cleanL_noMarks (l : List Dom) : noMarksL (cleanL l) = true := by
  induction l using domListInd with
  | hnil => rfl
  | hcons n tg cs a mt ml ch rest ihch ihrest =>
    simp only [cleanL, cleanD]
    unfold restoreNode
    by_cases hst : (tg == "style") = true
    · simp only [hst, if_true]
      cases hv : getAttr a "data-editor-href" with
      | some h =>
        simp only [noMarksL, noMarksD, Bool.and_eq_true]
        exact ⟨⟨by trivial, by trivial⟩, ihrest⟩
      | none =>
        simp only [noMarksL, noMarksD, Bool.and_eq_true]
        refine ⟨⟨?_, ihch⟩, ihrest⟩
        exact noMarksB_restored tg cs a (fun _ => hv)
    · have hst' : (tg == "style") = false := by simpa using hst
      simp only [hst', Bool.false_eq_true, if_false]
      simp only [noMarksL, noMarksD, Bool.and_eq_true]
      refine ⟨⟨?_, ihch⟩, ihrest⟩
      refine noMarksB_restored tg cs a (fun hc => ?_)
      rw [hc] at hst'
      simp at hst'

theorem cleanL_noId (l : List Dom)
    (h : noIdL "__editor_styles__" l = true) :
    noIdL "__editor_styles__" (cleanL l) = true := by
  induction l using domListInd with
  | hnil => rfl
  | hcons n tg cs a mt ml ch rest ihch ihrest =>
    simp only [noIdL, noIdD, Bool.and_eq_true] at h
    obtain ⟨⟨hid, hch⟩, hrest⟩ := h
    simp only [cleanL, cleanD]
    unfold restoreNode
    by_cases hst : (tg == "style") = true
    · simp only [hst, if_true]
      cases hv : getAttr a "data-editor-href" with
      | some hrf =>
        simp only [noIdL, noIdD, Bool.and_eq_true]
        exact ⟨⟨by trivial, by trivial⟩, ihrest hrest⟩
      | none =>
        simp only [noIdL, noIdD, Bool.and_eq_true]
        refine ⟨⟨?_, ihch hch⟩, ihrest hrest⟩
        rw [restoreAttrs_id a]
        exact hid
    · have hst' : (tg == "style") = false := by simpa using hst
      simp only [hst', Bool.false_eq_true, if_false]
      simp only [noIdL, noIdD, Bool.and_eq_true]
      refine ⟨⟨?_, ihch hch⟩, ihrest hrest⟩
      rw [restoreAttrs_id a]
      exact hid

theorem removeFirst_count (l : List Dom) :
    ((removeFirstL isEditorStyles l).2 = false →
      (removeFirstL isEditorStyles l).1 = l ∧
        countIdL "__editor_styles__" l = 0) ∧
    ((removeFirstL isEditorStyles l).2 = true →
      countIdL "__editor_styles__" (removeFirstL isEditorStyles l).1 + 1 ≤
        countIdL "__editor_styles__" l) := by
  induction l using domListInd with
  | hnil =>
    refine ⟨fun _ => ⟨rfl, rfl⟩, fun h => ?_⟩
    simp [removeFirstL] at h
  | hcons n tg cs a mt ml ch rest ihch ihrest =>
    by_cases hp : isEditorStyles (Dom.node n tg cs a mt ml ch) = true
    · have hid : (getAttr a "id" == some "__editor_styles__") = true := by
        simpa [isEditorStyles, Dom.attrs] using hp
      constructor
      · intro hf
        rw [removeFirstL] at hf
        simp [hp] at hf
      · intro _
        rw [removeFirstL]
        simp only [hp, if_true, countIdL, countIdD, hid, if_true]
        omega
    · have hp' : isEditorStyles (Dom.node n tg cs a mt ml ch) = false := by
        simpa using hp
      have hid : (getAttr a "id" == some "__editor_styles__") = false := by
        simpa [isEditorStyles, Dom.attrs] using hp'
      have hD : removeFirstD isEditorStyles (Dom.node n tg cs a mt ml ch) =
          (Dom.node n tg cs a mt ml (removeFirstL isEditorStyles ch).1,
           (removeFirstL isEditorStyles ch).2) := by
        rw [removeFirstD]
      cases hf : (removeFirstL isEditorStyles ch).2 with
      | true =>
        have hL : removeFirstL isEditorStyles
            (Dom.node n tg cs a mt ml ch :: rest) =
            (Dom.node n tg cs a mt ml (removeFirstL isEditorStyles ch).1 :: rest,
             true) := by
          rw [removeFirstL]
          simp only [hp', Bool.false_eq_true, if_false, hD, hf, if_true]
        constructor
        · intro habs
          rw [hL] at habs
          simp at habs
        · intro _
          rw [hL]
          have := ihch.2 hf
          simp only [countIdL, countIdD, hid, Bool.false_eq_true, if_false]
          omega
      | false =>
        obtain ⟨hch_eq, hch0⟩ := ihch.1 hf
        cases hrf : (removeFirstL isEditorStyles rest).2 with
        | true =>
          have hL : removeFirstL isEditorStyles
              (Dom.node n tg cs a mt ml ch :: rest) =
              (Dom.node n tg cs a mt ml ch ::
                (removeFirstL isEditorStyles rest).1, true) := by
            rw [removeFirstL]
            simp only [hp', Bool.false_eq_true, if_false, hD, hf, if_false, hrf]
          constructor
          · intro habs
            rw [hL] at habs
            simp at habs
          · intro _
            rw [hL]
            have := ihrest.2 hrf
            simp only [countIdL, countIdD, hid, Bool.false_eq_true, if_false]
            omega
        | false =>
          obtain ⟨hrest_eq, hrest0⟩ := ihrest.1 hrf
          have hL : removeFirstL isEditorStyles
              (Dom.node n tg cs a mt ml ch :: rest) =
              (Dom.node n tg cs a mt ml ch ::
                (removeFirstL isEditorStyles rest).1, false) := by
            rw [removeFirstL]
            simp only [hp', Bool.false_eq_true, if_false, hD, hf, if_false, hrf]
          constructor
          · intro _
            rw [hL]
            constructor
            · rw [hrest_eq]
            · simp only [countIdL, countIdD, hid, Bool.false_eq_true, if_false]
              omega
          · intro habs
            rw [hL] at habs
            simp at habs

theorem countId_zero_noId (l : List Dom)
    (h : countIdL "__editor_styles__" l = 0) :
    noIdL "__editor_styles__" l = true := by
  induction l using domListInd with
  | hnil => rfl
  | hcons n tg cs a mt ml ch rest ihch ihrest =>
    simp only [countIdL, countIdD] at h
    cases hid : (getAttr a "id" == some "__editor_styles__") with
    | true => rw [hid] at h; simp at h
    | false =>
      rw [hid] at h
      simp only [Bool.false_eq_true, if_false, Nat.zero_add] at h
      simp only [noIdL, noIdD, Bool.and_eq_true]
      refine ⟨⟨?_, ihch (by omega)⟩, ihrest (by omega)⟩
      simpa using hid

/-- C9: `serializeDocument` emits no editor-only metadata and restores every
provisionally rewritten attribute.  On any document whose root element is
clean (the injected metadata only ever lives on descendants) and which
contains at most one `#__editor_styles__` element (ids are unique in a
document; `querySelector` removes the first match), the output tree has: no
`data-editor-selected` attributes, no `data-editor-original-*` attributes,
no `__editor_`-prefixed class tokens, no `<style data-editor-href>` left
(each was replaced by a `<link rel="stylesheet">` with the original href,
stated in the last conjunct), and no `#__editor_styles__` element.
Furthermore the per-element attribute rewrite restores `src`, `href` and
`style` to the original values stored in their `data-editor-original-*`
markers, consuming the markers. -/
theorem serializeStripsEditorMetadata (t : Dom)
    (hroot : noMarksB t.tag t.classes t.attrs = true ∧
      getAttr t.attrs "id" ≠ some "__editor_styles__")
    (hid : countIdL "__editor_styles__" t.children ≤ 1) :
    noMarksD (serializeDocument t) = true ∧
    noIdD "__editor_styles__" (serializeDocument t) = true ∧
    (∀ a : List (String × String),
      (getAttr (restoreAttrs a) "src" =
        match getAttr a "data-editor-original-src" with
        | some v => some v
        | none => getAttr a "src") ∧
      (getAttr (restoreAttrs a) "href" =
        match getAttr a "data-editor-original-href" with
        | some v => some v
        | none => getAttr a "href") ∧
      (getAttr (restoreAttrs a) "style" =
        match getAttr a "data-editor-original-style" with
        | some v => some v
        | none => getAttr a "style") ∧
      getAttr (restoreAttrs a) "data-editor-original-src" = none ∧
      getAttr (restoreAttrs a) "data-editor-original-href" = none ∧
      getAttr (restoreAttrs a) "data-editor-original-style" = none ∧
      getAttr (restoreAttrs a) "data-editor-selected" = none) ∧
    (∀ (n : Nat) (cs : List String) (a : List (String × String)) (mt ml : Int)
        (ch : List Dom) (v : String), getAttr a "data-editor-href" = some v →
      restoreNode n "style" cs a mt ml ch =
        .node n "link" [] [("rel", "stylesheet"), ("href", v)] mt ml []) := by
  obtain ⟨hroot1, hroot2⟩ := hroot
  cases t with
  | node n tg cs a mt ml ch =>
    simp only [Dom.tag, Dom.classes, Dom.attrs, Dom.children] at hroot1 hroot2 hid
    have hnoidl1 : noIdL "__editor_styles__"
        (removeFirstL isEditorStyles ch).1 = true := by
      cases hfl : (removeFirstL isEditorStyles ch).2 with
      | false =>
        obtain ⟨heq, h0⟩ := (removeFirst_count ch).1 hfl
        rw [heq]
        exact countId_zero_noId ch h0
      | true =>
        have := (removeFirst_count ch).2 hfl
        exact countId_zero_noId _ (by omega)
    refine ⟨?_, ?_, ?_, ?_⟩
    · simp only [serializeDocument, noMarksD, Bool.and_eq_true]
      exact ⟨hroot1, cleanL_noMarks _⟩
    · simp only [serializeDocument, noIdD, Bool.and_eq_true]
      refine ⟨by simpa using hroot2, ?_⟩
      exact cleanL_noId _ hnoidl1
    · intro a0
      obtain ⟨m1, m2, m3, m4⟩ := restoreAttrs_markers a0
      exact ⟨restoreAttrs_src a0, restoreAttrs_href a0, restoreAttrs_style a0,
        m1, m2, m3, m4⟩
    · intro n0 cs0 a0 mt0 ml0 ch0 v hv
      unfold restoreNode
      simp only [hv]
      rfl

/-- Witness for C9: serializing the concrete editing document removes the
injected style element, the selection markers, the editor classes, restores
the image's original `src` and turns the rewritten stylesheet back into a
`<link>`. -/
theorem serializeStripsEditorMetadata_witness :
    (noMarksB treeSer.tag treeSer.classes treeSer.attrs = true ∧
      getAttr treeSer.attrs "id" ≠ some "__editor_styles__") ∧
    countIdL "__editor_styles__" treeSer.children ≤ 1 ∧
    noMarksD (serializeDocument treeSer) = true ∧
    noIdD "__editor_styles__" (serializeDocument treeSer) = true ∧
    getAttr (restoreAttrs [("src", "blob:x"), ("data-editor-original-src", "i.png")])
      "src" = some "i.png" :=
  ⟨⟨by decide, by decide⟩, by decide,
   (serializeStripsEditorMetadata treeSer ⟨by decide, by decide⟩ (by decide)).1,
   (serializeStripsEditorMetadata treeSer ⟨by decide, by decide⟩ (by decide)).2.1,
   ((serializeStripsEditorMetadata treeSer ⟨by decide, by decide⟩ (by decide)).2.2.1
     [("src", "blob:x"), ("data-editor-original-src", "i.png")]).1⟩
